import Mathlib

/-!
Shallow embedding of the patch representation, conflict-resolution and
application engine of the mentat repository:

* src/mentat/parsers/file_edit.py — Replacement (including its `__lt__`),
  FileEdit.resolve_conflicts, FileEdit.get_updated_file_lines;
* src/mentat/parsers/unified_diff_parser.py — UnifiedDiffParser._special_block
  and UnifiedDiffParser._add_code_block;
* mentat.parsers.diff_utils.matching_index is imported by the parser but its
  source file is not part of this snapshot; it is modelled from the spec
  (section 4.1, Anchor Resolver) below.

Line numbers are 0-indexed and non-negative everywhere in the source (they
come from list indices and from truncation to other non-negative values), so
they are embedded as Nat.  Python list slicing file_lines[:n] / file_lines[n:]
becomes List.take n / List.drop n, which agrees with Python for all
non-negative n including n past the end of the list.
-/

/-- Replacement (file_edit.py lines 22-40): the lines from starting_line
(inclusive) to ending_line (exclusive) should be replaced with new_lines. -/
structure Replacement where
  starting_line : Nat
  ending_line : Nat
  new_lines : List String
deriving DecidableEq, Repr

/-- Replacement.__lt__ exactly as written in file_edit.py lines 36-40.  Note
that the tie branch of the source compares self.starting_line with
other.ending_line (not with other.starting_line). -/
def Replacement.lt (r o : Replacement) : Prop :=
  r.ending_line < o.ending_line ∨
    (r.ending_line = o.ending_line ∧ r.starting_line < o.ending_line)

instance (r o : Replacement) : Decidable (r.lt o) :=
  inferInstanceAs (Decidable (_ ∨ _))

/-- One insertion step of a stable descending sort.  Python's
list.sort(reverse=True) is stable and orders greater elements first; an
element x is placed in front of the first already-sorted element y that is
strictly below it (so equal or incomparable elements keep their original
relative order, as in Python). -/
def insertD (x : Replacement) : List Replacement → List Replacement
  | [] => [x]
  | y :: ys => if x.lt y then y :: insertD x ys else x :: y :: ys

/-- self.replacements.sort(reverse=True) as used in file_edit.py lines 175
and 196: a stable descending sort with respect to Replacement.lt. -/
def sortRevTrue (l : List Replacement) : List Replacement := l.foldr insertD []

/-- The overlap test of file_edit.py lines 178-181:
other.ending_line > replacement.starting_line and
other.starting_line < replacement.ending_line, written here as
overlaps replacement other.  The condition is symmetric in its arguments. -/
def overlaps (r o : Replacement) : Prop :=
  r.starting_line < o.ending_line ∧ o.starting_line < r.ending_line

instance (r o : Replacement) : Decidable (overlaps r o) :=
  inferInstanceAs (Decidable (_ ∧ _))

/-- The mutation performed on other by file_edit.py lines 182-184 when the
overlap branch fires: other.ending_line = replacement.starting_line, then
other.starting_line = min(other.starting_line, other.ending_line) where
other.ending_line is already the new value. -/
def truncOne (r o : Replacement) : Replacement :=
  if overlaps r o then
    ⟨min o.starting_line r.starting_line, r.starting_line, o.new_lines⟩
  else o

/-- The nested loop of FileEdit.resolve_conflicts (file_edit.py lines
176-193): position index is compared against every later position, mutating
the later element in place when the ranges overlap; the insertion-collision
branch only prints and mutates nothing.  By the time position index becomes
the outer element its own value is final, so the loop is the recursion
below. -/
def resolvePassAux : Nat → List Replacement → List Replacement
  | 0, l => l
  | _ + 1, [] => []
  | n + 1, r :: rest => r :: resolvePassAux n (rest.map (truncOne r))

/-- The pairwise pass of resolve_conflicts; the fuel argument of
resolvePassAux is the list length, so the n+1 / nil fuel case is never
reached and the recursion follows the list exactly. -/
def resolvePass (l : List Replacement) : List Replacement :=
  resolvePassAux l.length l

/-- FileEdit.resolve_conflicts (file_edit.py lines 174-193): sort descending,
then run the pairwise truncation pass. -/
def resolve_conflicts (l : List Replacement) : List Replacement :=
  resolvePass (sortRevTrue l)

/-- The loop guard of file_edit.py line 199: earliest_line is not None and
replacement.ending_line > earliest_line. -/
def overlapGuard (earliest : Option Nat) (e : Nat) : Bool :=
  match earliest with
  | some p => decide (e > p)
  | none => false

/-- The padding of file_edit.py lines 202-203: when replacement.ending_line
exceeds the current buffer length, the buffer is extended in place with that
many empty lines. -/
def padding (r : Replacement) (file_lines : List String) : List String :=
  if r.ending_line > file_lines.length then
    List.replicate (r.ending_line - file_lines.length) ""
  else []

/-- The splice of file_edit.py lines 205-209 on the padded buffer:
file_lines[:starting_line] + new_lines + file_lines[ending_line:]. -/
def splice (r : Replacement) (file_lines : List String) : List String :=
  (file_lines ++ padding r file_lines).take r.starting_line ++ r.new_lines ++
    (file_lines ++ padding r file_lines).drop r.ending_line

/-- The loop of FileEdit.get_updated_file_lines (file_edit.py lines 197-210),
with the aliasing of the caller's list made explicit.  The local name
file_lines initially aliases the caller's list object; the padding statement
file_lines += [""] * n mutates that object in place, while the splice
statement rebinds file_lines to a fresh list, so only padding performed on
the first loop iteration reaches the caller.  The second component of the
result is the content of the caller's list object when the call finishes
(also when it raises). -/
def applyLoopFull :
    List Replacement → Option Nat → List String → List String → Bool →
      Except String (List String) × List String
  | [], _, file_lines, caller, _ => (.ok file_lines, caller)
  | r :: rs, earliest, file_lines, caller, aliased =>
    if overlapGuard earliest r.ending_line then
      (.error "Error: Line overlap in Replacements", caller)
    else
      applyLoopFull rs (some r.starting_line) (splice r file_lines)
        (if aliased then caller ++ padding r file_lines else caller) false

/-- FileEdit.get_updated_file_lines (file_edit.py lines 195-210): sort the
replacements descending, then splice each one into the buffer, checking the
no-overlap invariant along the way.  Returns the new buffer, or the
MentatError message of line 201. -/
def get_updated_file_lines (reps : List Replacement) (file_lines : List String) :
    Except String (List String) :=
  (applyLoopFull (sortRevTrue reps) none file_lines file_lines true).1

/-- The content of the caller's file_lines list object after
FileEdit.get_updated_file_lines returns (see applyLoopFull): padding on the
first loop iteration happens while the local name still aliases the caller's
list and therefore mutates it. -/
def callerAfter (reps : List Replacement) (file_lines : List String) :
    List String :=
  (applyLoopFull (sortRevTrue reps) none file_lines file_lines true).2

/-- Python str.startswith(pre), over the character-list model of String. -/
def pyStartsWith (s pre : String) : Bool := pre.data.isPrefixOf s.data

/-- Python str.strip() with no argument: remove whitespace from both ends.
The lines fed to it here come from splitting on a newline, so the relevant
whitespace characters are spaces and tabs, which Char.isWhitespace covers. -/
def pyStrip (s : String) : String :=
  ⟨((s.data.dropWhile Char.isWhitespace).reverse.dropWhile
      Char.isWhitespace).reverse⟩

/-- Python s[n:] for a string s and n greater or equal to 0. -/
def pyDrop (s : String) (n : Nat) : String := ⟨s.data.drop n⟩

/-- Python truthiness of a string: non-empty. -/
def pyNonEmpty (s : String) : Bool := !s.data.isEmpty

/-- The marker validation of unified_diff_parser.py lines 143-149: a line in
a change block is invalid when it is non-blank and does not start with the
addition, removal or context marker. -/
def invalidDiffLine (l : String) : Bool :=
  pyNonEmpty l && !pyStartsWith l "+" && !pyStartsWith l "-" &&
    !pyStartsWith l " "

/-- The splitting loop of UnifiedDiffParser._add_code_block
(unified_diff_parser.py lines 130-155): split the code block lines into
change groups at lines whose strip is the mid-change or end-change
delimiter, validating every other line; the end-change delimiter appends the
current group and breaks, and a trailing unterminated group is appended
after the loop.  An invalid line aborts with the error message of line
150-152 (terminal coloring dropped). -/
def splitChangesAux :
    List String → List (List String) → List String →
      Except String (List (List String))
  | [], changes, cur_lines =>
    .ok (changes ++ if cur_lines.isEmpty then [] else [cur_lines])
  | l :: rest, changes, cur_lines =>
    if pyStrip l = "@@" ∨ pyStrip l = "@@end" then
      if pyStrip l = "@@end" then .ok (changes ++ [cur_lines])
      else splitChangesAux rest (changes ++ [cur_lines]) []
    else if invalidDiffLine l then
      .error "Error: Invalid diff format given. Discarding this change."
    else splitChangesAux rest changes (cur_lines ++ [l])

/-- UnifiedDiffParser._add_code_block splitting stage on the list
code_block.split of newline. -/
def splitChanges (code_lines : List String) :
    Except String (List (List String)) :=
  splitChangesAux code_lines [] []

/-- The lines the splitting loop examines as change-group lines: everything
before the first end-change delimiter, delimiter lines excluded.  Used to
state which lines undergo marker validation. -/
def regionLines : List String → List String
  | [] => []
  | l :: rest =>
    if pyStrip l = "@@end" then []
    else if pyStrip l = "@@" then regionLines rest
    else l :: regionLines rest

/-- The search lines of one change group (unified_diff_parser.py lines
161-164): the removal and context lines in order, markers stripped. -/
def searchOf (change : List String) : List String :=
  (change.filter (fun l => pyStartsWith l "-" || pyStartsWith l " ")).map
    (fun l => pyDrop l 1)

/-- Modelled from the spec: mentat.parsers.diff_utils.matching_index is
imported at unified_diff_parser.py line 14 but diff_utils is not part of
this snapshot.  Spec section 4.1 (Anchor Resolver): return the lowest index
i such that buffer[i : i + len(search)] equals search exactly, line for
line, with no fuzzy or whitespace-tolerant matching; the NOT_FOUND result
(the -1 tested at line 172) is encoded as none. -/
def matchIdxAux (search : List String) : Nat → List String → Option Nat
  | i, [] => if search.isEmpty then some i else none
  | i, l :: t =>
    if search.isPrefixOf (l :: t) then some i else matchIdxAux search (i + 1) t

/-- Modelled from the spec: the Anchor Resolver entry point, see
matchIdxAux. -/
def matching_index (file_lines search : List String) : Option Nat :=
  matchIdxAux search 0 file_lines

/-- The replacement-building walk over one change group
(unified_diff_parser.py lines 178-200): a context line closes any open run
and advances the cursor, an addition line opens a run and accumulates its
stripped content, a removal line opens a run and advances the cursor, and
any other line (only blank lines survive validation) is ignored; a run
still open at the end of the group is emitted. -/
def walkAux : List String → Option Nat → List String → Nat → List Replacement
  | [], cur_start, cur_additions, cur_index =>
    match cur_start with
    | some s => [⟨s, cur_index, cur_additions⟩]
    | none => []
  | l :: rest, cur_start, cur_additions, cur_index =>
    if pyStartsWith l " " then
      (match cur_start with
       | some s => [⟨s, cur_index, cur_additions⟩]
       | none => []) ++ walkAux rest none [] (cur_index + 1)
    else if pyStartsWith l "+" then
      walkAux rest (some (cur_start.getD cur_index))
        (cur_additions ++ [pyDrop l 1]) cur_index
    else if pyStartsWith l "-" then
      walkAux rest (some (cur_start.getD cur_index)) cur_additions
        (cur_index + 1)
    else
      walkAux rest cur_start cur_additions cur_index

/-- The per-group stage of UnifiedDiffParser._add_code_block
(unified_diff_parser.py lines 159-200): empty search lines yield the single
insertion Replacement at position 0 built from every group line with its
first character stripped; otherwise the anchor is resolved and the walk
builds the Replacements, with a failed anchor aborting with the error
message of lines 172-176. -/
def processGroup (file_lines : List String) (change : List String) :
    Except String (List Replacement) :=
  let search_lines := searchOf change
  if search_lines.isEmpty then
    .ok [⟨0, 0, change.map (fun l => pyDrop l 1)⟩]
  else
    match matching_index file_lines search_lines with
    | none => .error "Error: Original lines not found. Discarding this change."
    | some start_index => .ok (walkAux change none [] start_index)

/-- The loop over change groups of UnifiedDiffParser._add_code_block,
accumulating the local replacements list; the first failing group aborts the
whole method. -/
def buildReps (file_lines : List String) :
    List (List String) → Except String (List Replacement)
  | [] => .ok []
  | g :: gs => do
    let r ← processGroup file_lines g
    let rest ← buildReps file_lines gs
    .ok (r ++ rest)

/-- UnifiedDiffParser._add_code_block (unified_diff_parser.py lines 116-203)
from the split code-block lines onward: split into validated change groups,
then anchor and build the Replacements of every group. -/
def addCodeBlock (file_lines : List String) (code_lines : List String) :
    Except String (List Replacement) := do
  let changes ← splitChanges code_lines
  buildReps file_lines changes

/-- The effect of one _add_code_block call on file_edit.replacements and its
returned message: the local replacements list is extended onto
file_edit.replacements only at line 202, after every error return, so on an
error the file edit is untouched and the error string (empty string means
success, as the method returns the empty string at line 203) is handed
back. -/
def applyAddCodeBlock (file_lines code_lines : List String)
    (reps : List Replacement) : List Replacement × String :=
  match addCodeBlock file_lines code_lines with
  | .ok rs => (reps ++ rs, "")
  | .error msg => (reps, msg)

/-- The pieces of the FileEdit constructed by _special_block that the claims
are about (file path, creation and deletion flags, rename target). -/
structure FileEditInfo where
  file_path : String
  is_creation : Bool
  is_deletion : Bool
  rename_file_path : Option String
deriving DecidableEq, Repr

/-- UnifiedDiffParser._special_block (unified_diff_parser.py lines 84-109),
given the first two lines of the special block (the source splits the block
on newlines and reads lines[0] and lines[1]): the original name is line 0
minus its 4-character marker, the new name line 1 minus its marker; a
/dev/null original marks a creation, a /dev/null new name a deletion, and
the rename target is kept only when it differs from the (possibly
substituted) file name and the block is not a deletion. -/
def special_block (git_root : String) (line0 line1 : String) : FileEditInfo :=
  let file_name := pyDrop line0 4
  let new_name := pyDrop line1 4
  let is_creation := file_name == "/dev/null"
  let is_deletion := new_name == "/dev/null"
  let file_name2 := if is_creation then new_name else file_name
  let rename :=
    if file_name2 == new_name || is_deletion then none else some new_name
  { file_path := git_root ++ "/" ++ file_name2
    is_creation := is_creation
    is_deletion := is_deletion
    rename_file_path := rename }

/-! Lemmas about the sort. -/

lemma insertD_perm (x : Replacement) (l : List Replacement) :
    (insertD x l).Perm (x :: l) := by
  induction l with
  | nil => exact List.Perm.refl _
  | cons y ys ih =>
    by_cases h : x.lt y
    · simp only [insertD, if_pos h]
      exact ((ih.cons y).trans (List.Perm.swap x y ys))
    · simp only [insertD, if_neg h]
      exact List.Perm.refl _

lemma sortRevTrue_perm (l : List Replacement) : (sortRevTrue l).Perm l := by
  induction l with
  | nil => exact List.Perm.refl _
  | cons x xs ih =>
    exact (insertD_perm x (sortRevTrue xs)).trans (ih.cons x)

lemma mem_sortRevTrue {a : Replacement} {l : List Replacement} :
    a ∈ sortRevTrue l ↔ a ∈ l :=
  (sortRevTrue_perm l).mem_iff

lemma overlaps_symm {a b : Replacement} (h : overlaps a b) : overlaps b a :=
  ⟨h.2, h.1⟩

lemma not_overlaps_symmetric :
    Symmetric fun a b : Replacement => ¬ overlaps a b := by
  intro a b hab hba
  exact hab (overlaps_symm hba)

/-- Negative transitivity of the (buggy) Replacement.lt, which holds even
though the relation is not asymmetric. -/
lemma lt_negtrans {x y z : Replacement} (h1 : ¬ x.lt y) (h2 : ¬ y.lt z) :
    ¬ x.lt z := by
  unfold Replacement.lt at *
  omega

/-- On a non-overlapping pair, the buggy comparison is asymmetric: both
directions can hold only for two positive-width ranges with equal
ending_line, which overlap. -/
lemma lt_asymm_of_not_overlaps {x y : Replacement} (h : ¬ overlaps x y)
    (hxy : x.lt y) : ¬ y.lt x := by
  unfold Replacement.lt at *
  unfold overlaps at h
  omega

lemma pairwise_insertD {x : Replacement} {l : List Replacement}
    (hl : l.Pairwise fun a b => ¬ a.lt b)
    (hx : ∀ y ∈ l, x.lt y → ¬ y.lt x) :
    (insertD x l).Pairwise fun a b => ¬ a.lt b := by
  induction l with
  | nil => simp [insertD]
  | cons y ys ih =>
    rcases List.pairwise_cons.mp hl with ⟨hy, hys⟩
    by_cases h : x.lt y
    · simp only [insertD, if_pos h]
      refine List.pairwise_cons.mpr ⟨?_, ?_⟩
      · intro w hw
        rcases List.mem_cons.mp ((insertD_perm x ys).mem_iff.mp hw) with rfl | hwys
        · exact hx y (List.mem_cons_self y ys) h
        · exact hy w hwys
      · exact ih hys fun w hw hxw => hx w (List.mem_cons_of_mem y hw) hxw
    · simp only [insertD, if_neg h]
      refine List.pairwise_cons.mpr ⟨?_, List.pairwise_cons.mpr ⟨hy, hys⟩⟩
      intro w hw
      rcases List.mem_cons.mp hw with rfl | hwys
      · exact h
      · exact lt_negtrans h (hy w hwys)

/-- Under pairwise non-overlap of the input, the stable descending sort
really is sorted: no element is lt-below a later one. -/
lemma pairwise_sortRevTrue {l : List Replacement}
    (h : l.Pairwise fun a b => ¬ overlaps a b) :
    (sortRevTrue l).Pairwise fun a b => ¬ a.lt b := by
  induction l with
  | nil => simp [sortRevTrue]
  | cons x xs ih =>
    rcases List.pairwise_cons.mp h with ⟨hx, hxs⟩
    show (insertD x (sortRevTrue xs)).Pairwise _
    refine pairwise_insertD (ih hxs) ?_
    intro y hy hxy
    exact lt_asymm_of_not_overlaps (hx y (mem_sortRevTrue.mp hy)) hxy

/-! Lemmas about the apply loop. -/

/-- An element that is sorted below another, does not overlap it, and has
non-negative width ends at or before that element's start. -/
lemma ending_le_start_of_sorted {a b : Replacement} (hlt : ¬ a.lt b)
    (hov : ¬ overlaps a b) (hw : b.starting_line ≤ b.ending_line) :
    b.ending_line ≤ a.starting_line := by
  unfold Replacement.lt at hlt
  unfold overlaps at hov
  omega

lemma applyLoop_ok {l : List Replacement}
    (hw : ∀ r ∈ l, r.starting_line ≤ r.ending_line)
    (hov : l.Pairwise fun a b => ¬ overlaps a b)
    (hsort : l.Pairwise fun a b => ¬ a.lt b) :
    ∀ earliest fl caller al,
      (∀ p, earliest = some p → ∀ b ∈ l, b.ending_line ≤ p) →
      ∃ out, (applyLoopFull l earliest fl caller al).1 = .ok out := by
  induction l with
  | nil => exact fun earliest fl caller al _ => ⟨fl, rfl⟩
  | cons a rest ih =>
    intro earliest fl caller al hbound
    rcases List.pairwise_cons.mp hov with ⟨hova, hovrest⟩
    rcases List.pairwise_cons.mp hsort with ⟨hsorta, hsortrest⟩
    have hwrest : ∀ r ∈ rest, r.starting_line ≤ r.ending_line :=
      fun r hr => hw r (List.mem_cons_of_mem a hr)
    have hguard : overlapGuard earliest a.ending_line = false := by
      cases earliest with
      | none => rfl
      | some p =>
        have := hbound p rfl a (List.mem_cons_self a rest)
        simp only [overlapGuard, decide_eq_false_iff_not]
        omega
    have hnext : ∀ p, some a.starting_line = some p →
        ∀ b ∈ rest, b.ending_line ≤ p := by
      intro p hp b hb
      obtain rfl := Option.some.inj hp
      exact ending_le_start_of_sorted (hsorta b hb) (hova b hb) (hwrest b hb)
    have hrec := ih hwrest hovrest hsortrest (some a.starting_line)
      (splice a fl) (if al then caller ++ padding a fl else caller) false hnext
    simpa only [applyLoopFull, hguard, Bool.false_eq_true, if_false] using hrec

lemma applyLoop_ok_bound {l : List Replacement} :
    ∀ {p : Nat} {fl caller : List String} {al : Bool} {out : List String},
      (applyLoopFull l (some p) fl caller al).1 = .ok out →
      (∀ r ∈ l, r.starting_line ≤ r.ending_line) →
      ∀ b ∈ l, b.ending_line ≤ p := by
  induction l with
  | nil => intro p fl caller al out _ _ b hb; cases hb
  | cons a rest ih =>
    intro p fl caller al out hrun hw b hb
    by_cases hguard : overlapGuard (some p) a.ending_line = true
    · rw [applyLoopFull, if_pos hguard] at hrun
      cases hrun
    · have hguardf : overlapGuard (some p) a.ending_line = false :=
        Bool.not_eq_true _ ▸ eq_false_of_ne_true hguard
      have hale : a.ending_line ≤ p := by
        simp only [overlapGuard, decide_eq_false_iff_not] at hguardf
        omega
      rw [applyLoopFull, if_neg hguard] at hrun
      have hwrest : ∀ r ∈ rest, r.starting_line ≤ r.ending_line :=
        fun r hr => hw r (List.mem_cons_of_mem a hr)
      rcases List.mem_cons.mp hb with rfl | hbrest
      · exact hale
      · have hba := ih hrun hwrest b hbrest
        have haw := hw a (List.mem_cons_self a rest)
        omega

lemma applyLoop_ok_pairwise {l : List Replacement} :
    ∀ {earliest : Option Nat} {fl caller : List String} {al : Bool}
      {out : List String},
      (applyLoopFull l earliest fl caller al).1 = .ok out →
      (∀ r ∈ l, r.starting_line ≤ r.ending_line) →
      l.Pairwise fun a b => ¬ overlaps a b := by
  induction l with
  | nil => intro _ _ _ _ _ _ _; exact List.Pairwise.nil
  | cons a rest ih =>
    intro earliest fl caller al out hrun hw
    by_cases hguard : overlapGuard earliest a.ending_line = true
    · rw [applyLoopFull, if_pos hguard] at hrun
      cases hrun
    · rw [applyLoopFull, if_neg hguard] at hrun
      have hwrest : ∀ r ∈ rest, r.starting_line ≤ r.ending_line :=
        fun r hr => hw r (List.mem_cons_of_mem a hr)
      refine List.pairwise_cons.mpr ⟨?_, ih hrun hwrest⟩
      intro b hb hcontra
      have := applyLoop_ok_bound hrun hwrest b hb
      unfold overlaps at hcontra
      omega

lemma applyLoop_caller_false (l : List Replacement) :
    ∀ (earliest : Option Nat) (fl caller : List String),
      (applyLoopFull l earliest fl caller false).2 = caller := by
  induction l with
  | nil => intro _ _ _; rfl
  | cons a rest ih =>
    intro earliest fl caller
    by_cases hguard : overlapGuard earliest a.ending_line = true
    · rw [applyLoopFull, if_pos hguard]
    · rw [applyLoopFull, if_neg hguard]
      exact ih _ _ _

lemma append_padding (r : Replacement) (fl : List String) :
    fl ++ padding r fl = fl ++ List.replicate (r.ending_line - fl.length) "" := by
  unfold padding
  split
  · rfl
  · have h0 : r.ending_line - fl.length = 0 := by omega
    simp [h0]

lemma get_ok_of_pairwise {rs : List Replacement} {fl : List String}
    (hw : ∀ r ∈ rs, r.starting_line ≤ r.ending_line)
    (hov : rs.Pairwise fun a b => ¬ overlaps a b) :
    ∃ out, get_updated_file_lines rs fl = .ok out := by
  have hw2 : ∀ r ∈ sortRevTrue rs, r.starting_line ≤ r.ending_line :=
    fun r hr => hw r (mem_sortRevTrue.mp hr)
  have hov2 : (sortRevTrue rs).Pairwise fun a b => ¬ overlaps a b :=
    ((sortRevTrue_perm rs).pairwise_iff
      fun h => not_overlaps_symmetric h).mpr hov
  have hsort := pairwise_sortRevTrue hov
  exact applyLoop_ok hw2 hov2 hsort none fl fl true fun p hp => by cases hp

lemma get_pairwise_of_ok {rs : List Replacement} {fl : List String}
    {out : List String} (hrun : get_updated_file_lines rs fl = .ok out)
    (hw : ∀ r ∈ rs, r.starting_line ≤ r.ending_line) :
    rs.Pairwise fun a b => ¬ overlaps a b := by
  have hw2 : ∀ r ∈ sortRevTrue rs, r.starting_line ≤ r.ending_line :=
    fun r hr => hw r (mem_sortRevTrue.mp hr)
  have hpw := applyLoop_ok_pairwise hrun hw2
  exact ((sortRevTrue_perm rs).pairwise_iff
    fun h => not_overlaps_symmetric h).mp hpw

/-! Lemmas about the conflict-resolution pass.  These hold for the pass run
on a list in any order, so nothing below depends on what the (buggy)
comparison made of the preceding sort. -/

lemma truncOne_width (r o : Replacement)
    (ho : o.starting_line ≤ o.ending_line) :
    (truncOne r o).starting_line ≤ (truncOne r o).ending_line := by
  unfold truncOne
  split
  · exact min_le_right _ _
  · exact ho

lemma truncOne_not_overlaps_self (r o : Replacement) :
    ¬ overlaps r (truncOne r o) := by
  unfold truncOne
  split
  · show ¬ (r.starting_line < r.starting_line ∧
      min o.starting_line r.starting_line < r.ending_line)
    omega
  · next hfire => exact hfire

/-- Truncating o against r cannot re-create an overlap with an element a
that neither o nor r overlapped: the new range only moves left, and its new
right end r.starting_line stays clear of a on either side. -/
lemma truncOne_preserves_not_overlaps {a r o : Replacement}
    (hao : ¬ overlaps a o) (har : ¬ overlaps a r)
    (hwr : r.starting_line ≤ r.ending_line) :
    ¬ overlaps a (truncOne r o) := by
  unfold truncOne
  split
  · next hfire =>
    unfold overlaps at hao har hfire
    show ¬ (a.starting_line < r.starting_line ∧
      min o.starting_line r.starting_line < a.ending_line)
    omega
  · exact hao

lemma resolvePassAux_widths {n : Nat} {l : List Replacement}
    (hw : ∀ r ∈ l, r.starting_line ≤ r.ending_line) :
    ∀ r ∈ resolvePassAux n l, r.starting_line ≤ r.ending_line := by
  induction n generalizing l with
  | zero => exact hw
  | succ n ih =>
    cases l with
    | nil => intro r hr; cases hr
    | cons a rest =>
      intro r hr
      rcases List.mem_cons.mp hr with rfl | hr2
      · exact hw r (List.mem_cons_self _ _)
      · refine ih ?_ r hr2
        intro r2 hmem
        rcases List.mem_map.mp hmem with ⟨o, ho, rfl⟩
        exact truncOne_width a o (hw o (List.mem_cons_of_mem a ho))

lemma resolvePassAux_head_not_overlaps {a : Replacement} {n : Nat}
    {l : List Replacement} (hna : ∀ o ∈ l, ¬ overlaps a o)
    (hw : ∀ o ∈ l, o.starting_line ≤ o.ending_line) :
    ∀ b ∈ resolvePassAux n l, ¬ overlaps a b := by
  induction n generalizing l with
  | zero => exact hna
  | succ n ih =>
    cases l with
    | nil => intro b hb; cases hb
    | cons r rest =>
      intro b hb
      rcases List.mem_cons.mp hb with rfl | hb2
      · exact hna b (List.mem_cons_self _ _)
      · refine ih ?_ ?_ b hb2
        · intro o hmem
          rcases List.mem_map.mp hmem with ⟨o0, ho0, rfl⟩
          exact truncOne_preserves_not_overlaps
            (hna o0 (List.mem_cons_of_mem r ho0))
            (hna r (List.mem_cons_self _ _))
            (hw r (List.mem_cons_self _ _))
        · intro o hmem
          rcases List.mem_map.mp hmem with ⟨o0, ho0, rfl⟩
          exact truncOne_width r o0 (hw o0 (List.mem_cons_of_mem r ho0))

lemma resolvePassAux_pairwise {n : Nat} {l : List Replacement}
    (hlen : l.length ≤ n)
    (hw : ∀ o ∈ l, o.starting_line ≤ o.ending_line) :
    (resolvePassAux n l).Pairwise fun a b => ¬ overlaps a b := by
  induction n generalizing l with
  | zero =>
    have : l = [] := List.length_eq_zero.mp (Nat.le_zero.mp hlen)
    subst this
    exact List.Pairwise.nil
  | succ n ih =>
    cases l with
    | nil => exact List.Pairwise.nil
    | cons a rest =>
      refine List.pairwise_cons.mpr ⟨?_, ?_⟩
      · refine resolvePassAux_head_not_overlaps ?_ ?_
        · intro o hmem
          rcases List.mem_map.mp hmem with ⟨o0, _, rfl⟩
          exact truncOne_not_overlaps_self a o0
        · intro o hmem
          rcases List.mem_map.mp hmem with ⟨o0, ho0, rfl⟩
          exact truncOne_width a o0 (hw o0 (List.mem_cons_of_mem a ho0))
      · refine ih ?_ ?_
        · simpa using Nat.le_of_succ_le_succ hlen
        · intro o hmem
          rcases List.mem_map.mp hmem with ⟨o0, ho0, rfl⟩
          exact truncOne_width a o0 (hw o0 (List.mem_cons_of_mem a ho0))

lemma resolve_conflicts_widths {l : List Replacement}
    (hw : ∀ r ∈ l, r.starting_line ≤ r.ending_line) :
    ∀ r ∈ resolve_conflicts l, r.starting_line ≤ r.ending_line := by
  unfold resolve_conflicts resolvePass
  exact resolvePassAux_widths fun r hr => hw r (mem_sortRevTrue.mp hr)

lemma resolve_conflicts_pairwise {l : List Replacement}
    (hw : ∀ r ∈ l, r.starting_line ≤ r.ending_line) :
    (resolve_conflicts l).Pairwise fun a b => ¬ overlaps a b := by
  unfold resolve_conflicts resolvePass
  exact resolvePassAux_pairwise (Nat.le_refl _)
    fun r hr => hw r (mem_sortRevTrue.mp hr)

/-! Lemmas about the unified-diff parser. -/

lemma splitChangesAux_error {lines : List String}
    (h : ∃ l ∈ regionLines lines, invalidDiffLine l = true) :
    ∀ acc cur, splitChangesAux lines acc cur =
      .error "Error: Invalid diff format given. Discarding this change." := by
  induction lines with
  | nil =>
    rcases h with ⟨w, hw, _⟩
    cases hw
  | cons l rest ih =>
    intro acc cur
    rcases h with ⟨w, hw, hwinv⟩
    by_cases hend : pyStrip l = "@@end"
    · rw [regionLines, if_pos hend] at hw
      cases hw
    · by_cases hmid : pyStrip l = "@@"
      · rw [regionLines, if_neg hend, if_pos hmid] at hw
        rw [splitChangesAux, if_pos (Or.inl hmid), if_neg hend]
        exact ih ⟨w, hw, hwinv⟩ _ _
      · rw [regionLines, if_neg hend, if_neg hmid] at hw
        have hdelim : ¬ (pyStrip l = "@@" ∨ pyStrip l = "@@end") := by
          intro hc
          rcases hc with hc | hc
          · exact hmid hc
          · exact hend hc
        rcases List.mem_cons.mp hw with rfl | hw2
        · rw [splitChangesAux, if_neg hdelim, if_pos hwinv]
        · by_cases hinv : invalidDiffLine l = true
          · rw [splitChangesAux, if_neg hdelim, if_pos hinv]
          · rw [splitChangesAux, if_neg hdelim, if_neg hinv]
            exact ih ⟨w, hw2, hwinv⟩ _ _

lemma processGroup_anchor_error {fl : List String} {g : List String}
    (hs : searchOf g ≠ []) (hm : matching_index fl (searchOf g) = none) :
    processGroup fl g =
      .error "Error: Original lines not found. Discarding this change." := by
  have hef : ¬ ((searchOf g).isEmpty = true) := by
    intro hc
    exact hs (List.isEmpty_iff.mp hc)
  unfold processGroup
  rw [if_neg hef, hm]

lemma processGroup_error_ne_empty {fl g : List String} {e : String}
    (h : processGroup fl g = .error e) : e ≠ "" := by
  unfold processGroup at h
  by_cases hie : (searchOf g).isEmpty = true
  · rw [if_pos hie] at h
    cases h
  · rw [if_neg hie] at h
    cases hmi : matching_index fl (searchOf g) with
    | none =>
      rw [hmi] at h
      simp only [Except.error.injEq] at h
      subst h
      decide
    | some i =>
      rw [hmi] at h
      simp at h

lemma buildReps_error {fl : List String} {gs : List (List String)}
    (h : ∃ g ∈ gs, searchOf g ≠ [] ∧ matching_index fl (searchOf g) = none) :
    ∃ msg, msg ≠ "" ∧ buildReps fl gs = .error msg := by
  induction gs with
  | nil =>
    rcases h with ⟨g, hg, _⟩
    cases hg
  | cons g0 rest ih =>
    rcases h with ⟨g, hg, hs, hm⟩
    rcases List.mem_cons.mp hg with rfl | hg2
    · exact ⟨"Error: Original lines not found. Discarding this change.",
        by decide,
        by simp only [buildReps, processGroup_anchor_error hs hm]; rfl⟩
    · cases hpe : processGroup fl g0 with
      | error e =>
        exact ⟨e, processGroup_error_ne_empty hpe,
          by simp only [buildReps, hpe]; rfl⟩
      | ok rs =>
        rcases ih ⟨g, hg2, hs, hm⟩ with ⟨msg, hne, hmsg⟩
        exact ⟨msg, hne, by simp only [buildReps, hpe, hmsg]; rfl⟩

lemma applyAddCodeBlock_of_error {fl code_lines : List String}
    {old : List Replacement} {msg : String}
    (h : addCodeBlock fl code_lines = .error msg) :
    applyAddCodeBlock fl code_lines old = (old, msg) := by
  unfold applyAddCodeBlock
  rw [h]

lemma searchOf_eq_nil {g : List String}
    (h : ∀ l ∈ g, pyStartsWith l "-" = false ∧ pyStartsWith l " " = false) :
    searchOf g = [] := by
  unfold searchOf
  rw [List.filter_eq_nil_iff.mpr ?_]
  · rfl
  · intro a ha
    rcases h a ha with ⟨h1, h2⟩
    simp [h1, h2]

lemma searchOf_cons (l : String) (t : List String) :
    searchOf (l :: t) =
      if (pyStartsWith l "-" || pyStartsWith l " ") = true then
        pyDrop l 1 :: searchOf t
      else searchOf t := by
  unfold searchOf
  rw [List.filter_cons]
  split
  · rfl
  · rfl

lemma blank_no_marker {l : String} (hl : pyNonEmpty l = false) :
    pyStartsWith l "-" = false ∧ pyStartsWith l " " = false ∧
      pyStartsWith l "+" = false := by
  unfold pyNonEmpty at hl
  have hdata : l.data = [] := by
    cases hld : l.data with
    | nil => rfl
    | cons c cs => rw [hld] at hl; simp at hl
  unfold pyStartsWith
  rw [hdata]
  exact ⟨rfl, rfl, rfl⟩

lemma searchOf_filter (g : List String) :
    searchOf (g.filter pyNonEmpty) = searchOf g := by
  induction g with
  | nil => rfl
  | cons l rest ih =>
    by_cases hb : pyNonEmpty l = true
    · rw [List.filter_cons, if_pos hb, searchOf_cons, searchOf_cons, ih]
    · have hbf : pyNonEmpty l = false := eq_false_of_ne_true hb
      rcases blank_no_marker hbf with ⟨h1, h2, _⟩
      rw [List.filter_cons, if_neg (by simp [hbf]), ih, searchOf_cons]
      rw [if_neg (by simp [h1, h2])]

lemma walkAux_filter (g : List String) :
    ∀ (st : Option Nat) (adds : List String) (i : Nat),
      walkAux (g.filter pyNonEmpty) st adds i = walkAux g st adds i := by
  induction g with
  | nil => intro _ _ _; rfl
  | cons l rest ih =>
    intro st adds i
    by_cases hb : pyNonEmpty l = true
    · rw [List.filter_cons, if_pos hb]
      by_cases h1 : pyStartsWith l " " = true
      · simp only [walkAux, h1, if_true]
        rw [ih]
      · by_cases h2 : pyStartsWith l "+" = true
        · simp only [walkAux, h1, h2, if_true, Bool.false_eq_true, if_false]
          rw [ih]
        · by_cases h3 : pyStartsWith l "-" = true
          · simp only [walkAux, h1, h2, h3, if_true, Bool.false_eq_true,
              if_false]
            rw [ih]
          · simp only [walkAux, h1, h2, h3, Bool.false_eq_true, if_false]
            rw [ih]
    · have hbf : pyNonEmpty l = false := eq_false_of_ne_true hb
      rcases blank_no_marker hbf with ⟨h1, h2, h3⟩
      rw [List.filter_cons, if_neg (by simp [hbf]), ih]
      simp only [walkAux, h1, h2, h3, Bool.false_eq_true, if_false]

lemma processGroup_filter {fl : List String} {g : List String}
    (h : ∃ l ∈ g, pyStartsWith l "-" = true ∨ pyStartsWith l " " = true) :
    processGroup fl (g.filter pyNonEmpty) = processGroup fl g := by
  have hsearch := searchOf_filter g
  have hne : searchOf g ≠ [] := by
    rcases h with ⟨l, hl, hcase⟩
    have hpred : (pyStartsWith l "-" || pyStartsWith l " ") = true := by
      rcases hcase with hc | hc <;> simp [hc]
    have hmem : pyDrop l 1 ∈ searchOf g :=
      List.mem_map_of_mem _ (List.mem_filter.mpr ⟨hl, hpred⟩)
    exact List.ne_nil_of_mem hmem
  have hef : ¬ ((searchOf g).isEmpty = true) := fun hc => hne (List.isEmpty_iff.mp hc)
  unfold processGroup
  rw [hsearch, if_neg hef, if_neg hef]
  cases matching_index fl (searchOf g) with
  | none => rfl
  | some i => simp only [walkAux_filter]

/-! Claim theorems. -/

/-- C1: for every line buffer and every single Replacement (s, e, new) with
s ≤ e, get_updated_file_lines on the one-element list returns
pad(buffer)[:s] + new + pad(buffer)[e:], where pad extends the buffer with
empty-string lines up to length e (the replicate count e - length is 0, so
pad is the identity, when e does not exceed the buffer length). -/
theorem single_replacement_splice (s e : Nat) (new buf : List String)
    (h : s ≤ e) :
    get_updated_file_lines [⟨s, e, new⟩] buf =
      .ok ((buf ++ List.replicate (e - buf.length) "").take s ++ new ++
        (buf ++ List.replicate (e - buf.length) "").drop e) := by
  have h1 : get_updated_file_lines [⟨s, e, new⟩] buf =
      .ok (splice ⟨s, e, new⟩ buf) := rfl
  rw [h1]
  unfold splice
  rw [append_padding]

/-- Witness for single_replacement_splice at the spec scenario: buffer
["a","b","c"] with Replacement (1,2,["B"]) yields ["a","B","c"]. -/
theorem single_replacement_splice_witness :
    1 ≤ 2 ∧ get_updated_file_lines [⟨1, 2, ["B"]⟩] ["a", "b", "c"] =
      .ok ["a", "B", "c"] := by
  refine ⟨by decide, ?_⟩
  rw [single_replacement_splice 1 2 ["B"] ["a", "b", "c"] (by decide)]
  rfl

/-- C2: when every Replacement of a FileEdit has non-negative width (as all
parser-produced Replacements do), then after resolve_conflicts every
Replacement still satisfies starting_line ≤ ending_line, no two Replacements
overlap (two positive-width ranges never share a line index and a zero-width
insertion point never lies strictly inside another range: that is the
predicate overlaps), and a subsequent get_updated_file_lines never raises
the overlap error. -/
theorem resolve_conflicts_no_overlap (l : List Replacement)
    (h : ∀ r ∈ l, r.starting_line ≤ r.ending_line) :
    (∀ r ∈ resolve_conflicts l, r.starting_line ≤ r.ending_line) ∧
      (resolve_conflicts l).Pairwise (fun a b => ¬ overlaps a b) ∧
      ∀ fl, (get_updated_file_lines (resolve_conflicts l) fl).isOk = true := by
  refine ⟨resolve_conflicts_widths h, resolve_conflicts_pairwise h, ?_⟩
  intro fl
  rcases @get_ok_of_pairwise (resolve_conflicts l) fl
    (resolve_conflicts_widths h) (resolve_conflicts_pairwise h) with
    ⟨out, hout⟩
  rw [hout]
  rfl

/-- Witness for resolve_conflicts_no_overlap on two genuinely overlapping
Replacements. -/
theorem resolve_conflicts_no_overlap_witness :
    (∀ r ∈ [(⟨0, 2, ["x"]⟩ : Replacement), ⟨1, 3, ["y"]⟩],
        r.starting_line ≤ r.ending_line) ∧
      ((∀ r ∈ resolve_conflicts [⟨0, 2, ["x"]⟩, ⟨1, 3, ["y"]⟩],
          r.starting_line ≤ r.ending_line) ∧
        (resolve_conflicts [⟨0, 2, ["x"]⟩, ⟨1, 3, ["y"]⟩]).Pairwise
          (fun a b => ¬ overlaps a b) ∧
        ∀ fl, (get_updated_file_lines
          (resolve_conflicts [⟨0, 2, ["x"]⟩, ⟨1, 3, ["y"]⟩]) fl).isOk = true) :=
  ⟨by decide, resolve_conflicts_no_overlap _ (by decide)⟩

/-- C3: for replacement lists whose elements all satisfy
starting_line ≤ ending_line, get_updated_file_lines raises the fatal
MentatError exactly when some two Replacements of the list overlap; stated
contrapositively, it returns a buffer without raising if and only if the
list is pairwise overlap-free. -/
theorem overlap_error_iff (rs : List Replacement) (fl : List String)
    (h : ∀ r ∈ rs, r.starting_line ≤ r.ending_line) :
    (get_updated_file_lines rs fl).isOk = true ↔
      rs.Pairwise fun a b => ¬ overlaps a b := by
  constructor
  · intro hok
    cases hrun : get_updated_file_lines rs fl with
    | error e => rw [hrun] at hok; cases hok
    | ok out => exact get_pairwise_of_ok hrun h
  · intro hpw
    rcases @get_ok_of_pairwise rs fl h hpw with ⟨out, hout⟩
    rw [hout]
    rfl

/-- Witness for overlap_error_iff on a non-overlapping pair. -/
theorem overlap_error_iff_witness :
    (∀ r ∈ [(⟨1, 2, ["B"]⟩ : Replacement), ⟨0, 1, ["A"]⟩],
        r.starting_line ≤ r.ending_line) ∧
      ((get_updated_file_lines [⟨1, 2, ["B"]⟩, ⟨0, 1, ["A"]⟩]
          ["a", "b"]).isOk = true ↔
        List.Pairwise (fun a b => ¬ overlaps a b)
          [(⟨1, 2, ["B"]⟩ : Replacement), ⟨0, 1, ["A"]⟩]) :=
  ⟨by decide, overlap_error_iff _ ["a", "b"] (by decide)⟩

lemma padding_eq_nil {r : Replacement} {fl : List String}
    (h : r.ending_line ≤ fl.length) : padding r fl = [] := by
  unfold padding
  rw [if_neg (by omega)]

/-- C4 counterexample: for the spec scenario (buffer ["a","b"], insertions
(0,0,["X"]) produced before (0,0,["Y"])), resolve_conflicts keeps both
unchanged, but applying them puts the later-produced content BEFORE the
earlier-produced one: the result is ["Y","X","a","b"], not
["X","Y","a","b"] as the claim states. -/
theorem insertion_collision_counterexample :
    resolve_conflicts [⟨0, 0, ["X"]⟩, ⟨0, 0, ["Y"]⟩] =
        [⟨0, 0, ["X"]⟩, ⟨0, 0, ["Y"]⟩] ∧
      get_updated_file_lines [⟨0, 0, ["X"]⟩, ⟨0, 0, ["Y"]⟩] ["a", "b"] =
        .ok ["Y", "X", "a", "b"] ∧
      get_updated_file_lines [⟨0, 0, ["X"]⟩, ⟨0, 0, ["Y"]⟩] ["a", "b"] ≠
        .ok ["X", "Y", "a", "b"] := by
  refine ⟨by rfl, by rfl, ?_⟩
  intro hc
  have h1 : get_updated_file_lines [⟨0, 0, ["X"]⟩, ⟨0, 0, ["Y"]⟩] ["a", "b"] =
      .ok ["Y", "X", "a", "b"] := by rfl
  rw [h1] at hc
  exact absurd (Except.ok.inj hc) (by decide)

/-- C4 amended: for every buffer and every pair of zero-width insertion
Replacements at the same point p (earlier-produced content A, later-produced
content B), resolve_conflicts keeps both Replacements unchanged and in
order, and get_updated_file_lines places the later-produced content B
immediately BEFORE the earlier-produced content A at the padded insertion
point: ties are processed in emission order, each inserting at the same
point, so the last applied lands first. -/
theorem insertion_collision_amended (p : Nat) (A B buf : List String) :
    resolve_conflicts [⟨p, p, A⟩, ⟨p, p, B⟩] = [⟨p, p, A⟩, ⟨p, p, B⟩] ∧
      get_updated_file_lines [⟨p, p, A⟩, ⟨p, p, B⟩] buf =
        .ok ((buf ++ List.replicate (p - buf.length) "").take p ++ B ++ A ++
          (buf ++ List.replicate (p - buf.length) "").drop p) := by
  have hnlt : ¬ Replacement.lt ⟨p, p, A⟩ ⟨p, p, B⟩ := by
    show ¬ (p < p ∨ (p = p ∧ p < p))
    omega
  have hnov : ¬ overlaps ⟨p, p, A⟩ ⟨p, p, B⟩ := by
    show ¬ (p < p ∧ p < p)
    omega
  have hsort : sortRevTrue [⟨p, p, A⟩, ⟨p, p, B⟩] =
      [⟨p, p, A⟩, ⟨p, p, B⟩] := by
    show (if Replacement.lt ⟨p, p, A⟩ ⟨p, p, B⟩ then
        (⟨p, p, B⟩ : Replacement) :: insertD ⟨p, p, A⟩ []
      else (⟨p, p, A⟩ : Replacement) :: [⟨p, p, B⟩]) = _
    rw [if_neg hnlt]
  have htr : truncOne ⟨p, p, A⟩ ⟨p, p, B⟩ = ⟨p, p, B⟩ := by
    unfold truncOne
    rw [if_neg hnov]
  constructor
  · unfold resolve_conflicts resolvePass
    rw [hsort]
    show (⟨p, p, A⟩ : Replacement) ::
        resolvePassAux 1 [truncOne ⟨p, p, A⟩ ⟨p, p, B⟩] =
      [⟨p, p, A⟩, ⟨p, p, B⟩]
    rw [htr]
    rfl
  · have hg2 : overlapGuard (some p) p = false := by
      simp [overlapGuard]
    have hstep : get_updated_file_lines [⟨p, p, A⟩, ⟨p, p, B⟩] buf =
        (if overlapGuard (some p) p = true then
          (Except.error "Error: Line overlap in Replacements",
            buf ++ padding ⟨p, p, A⟩ buf)
        else
          (Except.ok (splice ⟨p, p, B⟩ (splice ⟨p, p, A⟩ buf)),
            buf ++ padding ⟨p, p, A⟩ buf)).1 := by
      unfold get_updated_file_lines
      rw [hsort]
      rfl
    rw [hstep, if_neg (by rw [hg2]; simp)]
    have hsplX : splice ⟨p, p, A⟩ buf =
        (buf ++ List.replicate (p - buf.length) "").take p ++ A ++
          (buf ++ List.replicate (p - buf.length) "").drop p := by
      unfold splice
      rw [append_padding]
    have htlen : ((buf ++ List.replicate (p - buf.length) "").take p).length =
        p := by
      simp [List.length_take, List.length_append, List.length_replicate]
      omega
    have hfl1len : p ≤
        ((buf ++ List.replicate (p - buf.length) "").take p ++ A ++
          (buf ++ List.replicate (p - buf.length) "").drop p).length := by
      simp only [List.length_append, htlen]
      omega
    have hsplY : splice ⟨p, p, B⟩
        ((buf ++ List.replicate (p - buf.length) "").take p ++ A ++
          (buf ++ List.replicate (p - buf.length) "").drop p) =
        ((buf ++ List.replicate (p - buf.length) "").take p ++ A ++
          (buf ++ List.replicate (p - buf.length) "").drop p).take p ++ B ++
        ((buf ++ List.replicate (p - buf.length) "").take p ++ A ++
          (buf ++ List.replicate (p - buf.length) "").drop p).drop p := by
      unfold splice
      rw [padding_eq_nil hfl1len, List.append_nil]
    have htake2 : ((buf ++ List.replicate (p - buf.length) "").take p ++ A ++
        (buf ++ List.replicate (p - buf.length) "").drop p).take p =
        (buf ++ List.replicate (p - buf.length) "").take p := by
      rw [List.append_assoc]
      exact List.take_left' htlen
    have hdrop2 : ((buf ++ List.replicate (p - buf.length) "").take p ++ A ++
        (buf ++ List.replicate (p - buf.length) "").drop p).drop p =
        A ++ (buf ++ List.replicate (p - buf.length) "").drop p := by
      rw [List.append_assoc]
      exact List.drop_left' htlen
    show Except.ok (splice ⟨p, p, B⟩ (splice ⟨p, p, A⟩ buf)) = _
    rw [hsplX, hsplY, htake2, hdrop2]
    simp [List.append_assoc]

/-- C5: _add_code_block is atomic on parse failure.  If some change-group
line of the code block (a line before the end-change delimiter that is not a
delimiter line) is non-blank and begins with a character other than the
addition, removal or context marker, or if some change group has non-empty
search lines with no contiguous occurrence in the file buffer, then the
method returns a non-empty error message and file_edit.replacements is left
exactly as it was before the call. -/
theorem add_code_block_atomic (fl code_lines : List String)
    (old : List Replacement)
    (h : (∃ l ∈ regionLines code_lines, invalidDiffLine l = true) ∨
      (∃ gs, splitChanges code_lines = .ok gs ∧
        ∃ g ∈ gs, searchOf g ≠ [] ∧ matching_index fl (searchOf g) = none)) :
    ∃ msg, msg ≠ "" ∧ applyAddCodeBlock fl code_lines old = (old, msg) := by
  rcases h with h1 | ⟨gs, hgs, h2⟩
  · have hsplit : splitChanges code_lines =
        .error "Error: Invalid diff format given. Discarding this change." :=
      splitChangesAux_error h1 [] []
    have haddErr : addCodeBlock fl code_lines =
        .error "Error: Invalid diff format given. Discarding this change." := by
      simp only [addCodeBlock, hsplit]
      rfl
    exact ⟨_, by decide, applyAddCodeBlock_of_error haddErr⟩
  · rcases buildReps_error h2 with ⟨msg, hne, hmsg⟩
    have haddErr : addCodeBlock fl code_lines = .error msg := by
      unfold addCodeBlock
      rw [hgs]
      show buildReps fl gs = .error msg
      exact hmsg
    exact ⟨msg, hne, applyAddCodeBlock_of_error haddErr⟩

/-- Witness for add_code_block_atomic: the single malformed line "x" aborts
the block and leaves the pre-existing replacement list untouched. -/
theorem add_code_block_atomic_witness :
    ∃ msg, msg ≠ "" ∧
      applyAddCodeBlock ["a"] ["x"] [⟨0, 0, ["old"]⟩] =
        ([⟨0, 0, ["old"]⟩], msg) :=
  add_code_block_atomic ["a"] ["x"] [⟨0, 0, ["old"]⟩] (Or.inl (by decide))

/-- C6 (code bug): the tie branch of Replacement.__lt__ compares
self.starting_line against other.ending_line instead of
other.starting_line, so the relation claimed to be a strict total order by
(ending_line, starting_line) is neither irreflexive nor asymmetric:
(0,2) < (0,2) holds, and (0,2) < (1,2) and (1,2) < (0,2) hold
simultaneously. -/
theorem replacement_lt_bug :
    Replacement.lt ⟨0, 2, []⟩ ⟨0, 2, []⟩ ∧
      Replacement.lt ⟨0, 2, []⟩ ⟨1, 2, []⟩ ∧
      Replacement.lt ⟨1, 2, []⟩ ⟨0, 2, []⟩ := by
  decide

/-- C7 counterexample: get_updated_file_lines DOES mutate the caller's
buffer when padding occurs on the first-applied replacement, because the
padding statement file_lines += [...] runs while the local name still
aliases the caller's list: buffer ["a"] with Replacement (0,2,["X"]) leaves
the caller's list as ["a",""]. -/
theorem caller_buffer_mutated :
    callerAfter [⟨0, 2, ["X"]⟩] ["a"] = ["a", ""] ∧
      (["a", ""] : List String) ≠ ["a"] := by
  exact ⟨rfl, by decide⟩

/-- C7 amended: get_updated_file_lines leaves the caller's line buffer
unchanged whenever no replacement's ending_line exceeds the buffer length
(so no padding of the original buffer occurs); only first-iteration padding
can reach the caller's list. -/
theorem caller_buffer_unchanged (rs : List Replacement) (fl : List String)
    (h : ∀ r ∈ rs, r.ending_line ≤ fl.length) :
    callerAfter rs fl = fl := by
  unfold callerAfter
  cases hs : sortRevTrue rs with
  | nil => rfl
  | cons r rest =>
    have hr : r ∈ rs := by
      refine mem_sortRevTrue.mp ?_
      rw [hs]
      exact List.mem_cons_self _ _
    have hpad : padding r fl = [] := padding_eq_nil (h r hr)
    rw [applyLoopFull, if_neg (by simp [overlapGuard])]
    rw [if_pos rfl, hpad, List.append_nil]
    exact applyLoop_caller_false _ _ _ _

/-- Witness for caller_buffer_unchanged: an in-range replacement leaves the
caller's buffer ["a","b"] intact. -/
theorem caller_buffer_unchanged_witness :
    (∀ r ∈ [(⟨0, 1, ["B"]⟩ : Replacement)],
        r.ending_line ≤ (["a", "b"] : List String).length) ∧
      callerAfter [⟨0, 1, ["B"]⟩] ["a", "b"] = ["a", "b"] :=
  ⟨by decide, caller_buffer_unchanged [⟨0, 1, ["B"]⟩] ["a", "b"] (by decide)⟩

/-- C8: a change group with no removal and no context lines yields empty
search lines, so the parser emits exactly one Replacement (0, 0, ...) — a
pure insertion at the start of the file — whose new_lines are the group's
lines each with its first character stripped, in group order. -/
theorem pure_insertion_group (fl g : List String)
    (h : ∀ l ∈ g, pyStartsWith l "-" = false ∧ pyStartsWith l " " = false) :
    processGroup fl g = .ok [⟨0, 0, g.map (fun l => pyDrop l 1)⟩] := by
  have hs := searchOf_eq_nil h
  unfold processGroup
  rw [hs]
  rfl

/-- Witness for pure_insertion_group on the group ["+x", "+y"]. -/
theorem pure_insertion_group_witness :
    (∀ l ∈ ["+x", "+y"],
        pyStartsWith l "-" = false ∧ pyStartsWith l " " = false) ∧
      processGroup ["a"] ["+x", "+y"] = .ok [⟨0, 0, ["x", "y"]⟩] := by
  refine ⟨by decide, ?_⟩
  rw [pure_insertion_group ["a"] ["+x", "+y"] (by decide)]
  rfl

/-- C9 counterexample: a special block whose original and new file names are
both /dev/null produces a FileEdit with is_creation and is_deletion BOTH
true, so the two flags are not mutually exclusive on that input. -/
theorem special_block_both_flags :
    (special_block "" "--- /dev/null" "+++ /dev/null").is_creation = true ∧
      (special_block "" "--- /dev/null" "+++ /dev/null").is_deletion = true := by
  exact ⟨rfl, rfl⟩

/-- C9 amended: every FileEdit constructed by _special_block from a block
whose two header names are not both /dev/null has mutually exclusive
is_creation and is_deletion flags; only the degenerate block whose names
are both /dev/null sets both. -/
theorem special_block_flags_exclusive (root l0 l1 : String)
    (h : ¬ (pyDrop l0 4 = "/dev/null" ∧ pyDrop l1 4 = "/dev/null")) :
    ¬ ((special_block root l0 l1).is_creation = true ∧
      (special_block root l0 l1).is_deletion = true) := by
  intro hc
  rcases hc with ⟨hcrea, hdel⟩
  have h0 : (special_block root l0 l1).is_creation =
      (pyDrop l0 4 == "/dev/null") := rfl
  have h1 : (special_block root l0 l1).is_deletion =
      (pyDrop l1 4 == "/dev/null") := rfl
  rw [h0] at hcrea
  rw [h1] at hdel
  exact h ⟨eq_of_beq hcrea, eq_of_beq hdel⟩

/-- Witness for special_block_flags_exclusive on an ordinary update block. -/
theorem special_block_flags_exclusive_witness :
    (¬ (pyDrop "--- a.py" 4 = "/dev/null" ∧
        pyDrop "+++ a.py" 4 = "/dev/null")) ∧
      ¬ ((special_block "" "--- a.py" "+++ a.py").is_creation = true ∧
        (special_block "" "--- a.py" "+++ a.py").is_deletion = true) :=
  ⟨by decide, special_block_flags_exclusive "" "--- a.py" "+++ a.py" (by decide)⟩

/-- C10: in a change group that has at least one removal or context line,
blank lines pass marker validation (invalidDiffLine "" is false) and are
then ignored entirely: the search lines, the replacement-building walk from
any anchor, and the whole per-group result are the same as for the group
with its blank lines removed, so blank lines contribute nothing to
anchoring, never advance the cursor, and never appear in any emitted
new_lines. -/
theorem blank_lines_ignored (fl g : List String) (start : Nat)
    (h : ∃ l ∈ g, pyStartsWith l "-" = true ∨ pyStartsWith l " " = true) :
    invalidDiffLine "" = false ∧
      searchOf g = searchOf (g.filter pyNonEmpty) ∧
      walkAux g none [] start = walkAux (g.filter pyNonEmpty) none [] start ∧
      processGroup fl g = processGroup fl (g.filter pyNonEmpty) :=
  ⟨rfl, (searchOf_filter g).symm, (walkAux_filter g none [] start).symm,
    (processGroup_filter h).symm⟩

/-- Witness for blank_lines_ignored on the group ["-a", "", "+b"] against
buffer ["a"]. -/
theorem blank_lines_ignored_witness :
    (∃ l ∈ ["-a", "", "+b"],
        pyStartsWith l "-" = true ∨ pyStartsWith l " " = true) ∧
      (invalidDiffLine "" = false ∧
        searchOf ["-a", "", "+b"] =
          searchOf (List.filter pyNonEmpty ["-a", "", "+b"]) ∧
        walkAux ["-a", "", "+b"] none [] 0 =
          walkAux (List.filter pyNonEmpty ["-a", "", "+b"]) none [] 0 ∧
        processGroup ["a"] ["-a", "", "+b"] =
          processGroup ["a"] (List.filter pyNonEmpty ["-a", "", "+b"])) :=
  ⟨by decide, blank_lines_ignored ["a"] ["-a", "", "+b"] 0 (by decide)⟩
